import Mathlib

/-!
Shallow embedding of the order-book validation schema of the Nobitex-Python
repository (`src/nobitex/schema/orderbook.py`): the pydantic models
`OrderBookEntry` and `OrderBook` and the `all_order_books_T` type adapter
for `dict[str, OrderBook]`.

The numeric fields are Python `decimal.Decimal` values.  A finite decimal is
modelled as a sign, an integer coefficient and an integer exponent, which is
exactly the `(sign, digits, exponent)` representation of the standard
library: the representation (not only the numeric value) records trailing
zeros, so `50000.0` and `50000` are distinct decimals with the same value.
`decFromString` models the `Decimal` constructor on finite numeric strings
(the `sign? digits? (. digits?)? ([Ee] sign? digits)?` grammar), and
`decToString` models `str` on a decimal (the to-scientific-string
conversion used by `decimal.Decimal.__str__`).

Validation of a raw payload is modelled over an inductive type of raw
JSON-like values.  The pydantic behaviour embedded here is the default
behaviour of the library as used by the repository: fields validated in
declaration order, extra mapping keys ignored, errors collected across
fields and elements with structured locations, all-or-nothing results.
-/

namespace Nobitex

/-- Model of a finite Python `decimal.Decimal`: sign, coefficient, exponent.
The denoted value is `(-1)^neg * coeff * 10^exp`; the representation itself
records trailing zeros, e.g. `50000.0` is `⟨false, 500000, -1⟩` while
`50000` is `⟨false, 50000, 0⟩`. -/
structure Dec where
  neg : Bool
  coeff : Nat
  exp : Int
deriving DecidableEq

/-- Rational value denoted by a decimal (exact, no rounding). -/
def Dec.toRat (d : Dec) : ℚ :=
  (if d.neg then (-1 : ℚ) else 1) * (d.coeff : ℚ) * (10 : ℚ) ^ d.exp

/-- ASCII decimal digit test. -/
def isDigitChar (c : Char) : Bool := decide (48 ≤ c.toNat ∧ c.toNat ≤ 57)

/-- Numeric value of a digit character. -/
def digitVal (c : Char) : Nat := c.toNat - 48

/-- Numeric value of a most-significant-first digit string. -/
def digitsToNat (l : List Char) : Nat := l.foldl (fun a c => 10 * a + digitVal c) 0

/-- Digit character for a value below ten. -/
def digitChar (m : Nat) : Char :=
  if m = 0 then '0' else if m = 1 then '1' else if m = 2 then '2'
  else if m = 3 then '3' else if m = 4 then '4' else if m = 5 then '5'
  else if m = 6 then '6' else if m = 7 then '7' else if m = 8 then '8' else '9'

/-- Most-significant-first digit string of a natural number. -/
def natDigits (n : Nat) : List Char :=
  if h : n < 10 then [digitChar n]
  else natDigits (n / 10) ++ [digitChar (n % 10)]
decreasing_by omega

theorem isDigitChar_digitChar (m : Nat) : isDigitChar (digitChar m) = true := by
  unfold digitChar
  split_ifs <;> decide

theorem digitVal_digitChar (m : Nat) (h : m < 10) : digitVal (digitChar m) = m := by
  unfold digitChar
  split_ifs with h0 h1 h2 h3 h4 h5 h6 h7 h8
  · subst h0; decide
  · subst h1; decide
  · subst h2; decide
  · subst h3; decide
  · subst h4; decide
  · subst h5; decide
  · subst h6; decide
  · subst h7; decide
  · subst h8; decide
  · have h9 : m = 9 := by omega
    subst h9; decide

theorem digitsToNat_foldl (l : List Char) (a : Nat) :
    l.foldl (fun b c => 10 * b + digitVal c) a = a * 10 ^ l.length + digitsToNat l := by
  induction l generalizing a with
  | nil => simp [digitsToNat]
  | cons c t ih =>
    simp only [List.foldl_cons, digitsToNat, List.length_cons]
    rw [ih, ih (10 * 0 + digitVal c)]
    ring

theorem digitsToNat_append (a b : List Char) :
    digitsToNat (a ++ b) = digitsToNat a * 10 ^ b.length + digitsToNat b := by
  simp only [digitsToNat, List.foldl_append]
  exact digitsToNat_foldl b _

theorem digitsToNat_singleton (c : Char) : digitsToNat [c] = digitVal c := by
  simp [digitsToNat]

theorem digitsToNat_cons_zero (l : List Char) : digitsToNat ('0' :: l) = digitsToNat l := by
  have h : (10 * 0 + digitVal '0') = 0 := by decide
  simp only [digitsToNat, List.foldl_cons, h]

theorem digitsToNat_replicate (k : Nat) : digitsToNat (List.replicate k '0') = 0 := by
  induction k with
  | zero => rfl
  | succ k ih => rw [List.replicate_succ, digitsToNat_cons_zero]; exact ih

theorem digitsToNat_zeros_append (k : Nat) (l : List Char) :
    digitsToNat (List.replicate k '0' ++ l) = digitsToNat l := by
  rw [digitsToNat_append, digitsToNat_replicate]
  simp

theorem digitsToNat_natDigits (n : Nat) : digitsToNat (natDigits n) = n := by
  induction n using Nat.strong_induction_on with
  | _ n ih =>
    unfold natDigits
    split
    case isTrue h =>
      rw [digitsToNat_singleton, digitVal_digitChar n h]
    case isFalse h =>
      rw [digitsToNat_append, digitsToNat_singleton, digitVal_digitChar _ (by omega)]
      rw [ih (n / 10) (by omega)]
      simp only [List.length_singleton, pow_one]
      omega

theorem natDigits_all (n : Nat) : ∀ c ∈ natDigits n, isDigitChar c = true := by
  induction n using Nat.strong_induction_on with
  | _ n ih =>
    unfold natDigits
    split
    case isTrue h =>
      intro c hc
      rw [List.mem_singleton] at hc
      subst hc; exact isDigitChar_digitChar n
    case isFalse h =>
      intro c hc
      rw [List.mem_append] at hc
      rcases hc with hc | hc
      · exact ih (n / 10) (by omega) c hc
      · rw [List.mem_singleton] at hc; subst hc; exact isDigitChar_digitChar _

theorem natDigits_ne_nil (n : Nat) : natDigits n ≠ [] := by
  unfold natDigits
  split <;> simp

theorem natDigits_length_pos (n : Nat) : 1 ≤ (natDigits n).length := by
  have h := natDigits_ne_nil n
  cases hl : natDigits n with
  | nil => exact absurd hl h
  | cons c t => simp

/-- Exponent marker test (`E` or `e`). -/
def isEChar (c : Char) : Bool := decide (c = 'E' ∨ c = 'e')

/-- Decimal point test. -/
def isDotChar (c : Char) : Bool := decide (c = '.')

/-- Split a character list at the first character satisfying `p`; return the
prefix and, when a split character was found, the remainder after it. -/
def splitAtPred (p : Char → Bool) : List Char → List Char × Option (List Char)
  | [] => ([], none)
  | c :: rest =>
    if p c then ([], some rest)
    else
      let r := splitAtPred p rest
      (c :: r.1, r.2)

/-- Consume one optional leading sign: `-` yields `true`, `+` yields `false`,
anything else leaves the input unchanged. -/
def parseSign (s : List Char) : Bool × List Char :=
  match s with
  | [] => (false, [])
  | ch :: rest =>
    if ch = '-' then (true, rest)
    else if ch = '+' then (false, rest)
    else (false, ch :: rest)

/-- Model of the `decimal.Decimal` constructor applied after the optional
leading sign has been consumed: split at the exponent marker, split the
mantissa at the decimal point, require the digit groups to be digit strings
with at least one mantissa digit, and assemble coefficient and exponent. -/
def decFromStringNoSign (neg : Bool) (s1 : List Char) : Option Dec :=
  let se := splitAtPred isEChar s1
  let sd := splitAtPred isDotChar se.1
  let ip := sd.1
  let fp := sd.2.getD []
  if ip.all isDigitChar && fp.all isDigitChar && (!ip.isEmpty || !fp.isEmpty) then
    match se.2 with
    | none => some ⟨neg, digitsToNat (ip ++ fp), -(fp.length : Int)⟩
    | some es =>
      let ps := parseSign es
      if !ps.2.isEmpty && ps.2.all isDigitChar then
        some ⟨neg, digitsToNat (ip ++ fp),
          (if ps.1 then -(digitsToNat ps.2 : Int) else (digitsToNat ps.2 : Int))
            - (fp.length : Int)⟩
      else none
  else none

/-- Model of the `decimal.Decimal` constructor on a finite numeric string. -/
def decFromString (s : List Char) : Option Dec :=
  decFromStringNoSign (parseSign s).1 (parseSign s).2

theorem isDigitChar_ne_of (c d : Char) (h : isDigitChar c = true)
    (hd : isDigitChar d = false) : c ≠ d := by
  intro he
  rw [he, hd] at h
  exact Bool.noConfusion h

theorem isEChar_of_digit (c : Char) (h : isDigitChar c = true) : isEChar c = false := by
  simp only [isEChar, decide_eq_false_iff_not]
  rintro (rfl | rfl) <;> exact absurd h (by decide)

theorem isDotChar_of_digit (c : Char) (h : isDigitChar c = true) : isDotChar c = false := by
  simp only [isDotChar, decide_eq_false_iff_not]
  rintro rfl
  exact absurd h (by decide)

theorem parseSign_neg (l : List Char) : parseSign ('-' :: l) = (true, l) := rfl

theorem parseSign_other (ch : Char) (l : List Char) (h1 : ch ≠ '-') (h2 : ch ≠ '+') :
    parseSign (ch :: l) = (false, ch :: l) := by
  simp [parseSign, h1, h2]

theorem parseSign_pos (l : List Char) : parseSign ('+' :: l) = (false, l) := rfl

theorem splitAtPred_cons_pos (p : Char → Bool) (c : Char) (l : List Char) (hc : p c = true) :
    splitAtPred p (c :: l) = ([], some l) := by
  simp [splitAtPred, hc]

theorem splitAtPred_cons_neg (p : Char → Bool) (c : Char) (l : List Char) (hc : p c = false) :
    splitAtPred p (c :: l) = (c :: (splitAtPred p l).1, (splitAtPred p l).2) := by
  simp [splitAtPred, hc]

theorem splitAtPred_none (p : Char → Bool) (l : List Char) (h : ∀ c ∈ l, p c = false) :
    splitAtPred p l = (l, none) := by
  induction l with
  | nil => rfl
  | cons c t ih =>
    have hc : p c = false := h c (List.mem_cons_self c t)
    simp only [splitAtPred, hc, Bool.false_eq_true, if_false]
    rw [ih (fun x hx => h x (List.mem_cons_of_mem c hx))]

theorem splitAtPred_app (p : Char → Bool) (a : List Char) (c : Char) (b : List Char)
    (h : ∀ x ∈ a, p x = false) (hc : p c = true) :
    splitAtPred p (a ++ c :: b) = (a, some b) := by
  induction a with
  | nil => simp [splitAtPred, hc]
  | cons x t ih =>
    have hx : p x = false := h x (List.mem_cons_self x t)
    simp only [List.cons_append, splitAtPred, hx, Bool.false_eq_true, if_false, List.append_eq]
    rw [ih (fun y hy => h y (List.mem_cons_of_mem x hy))]

/-- Body (sign-less digits and decimal point) of the string form of a
decimal, given its digit string and the position of the decimal point,
following `decimal.Decimal.__str__`. -/
def decCoreBody (ds : List Char) (dot : Int) : List Char :=
  if dot ≤ 0 then '0' :: '.' :: (List.replicate (-dot).toNat '0' ++ ds)
  else if (ds.length : Int) ≤ dot then ds ++ List.replicate (dot - ds.length).toNat '0'
  else ds.take dot.toNat ++ '.' :: ds.drop dot.toNat

/-- Printed exponent: `E` followed by an always-signed integer. -/
def expChars (z : Int) : List Char :=
  'E' :: ((if z < 0 then ['-'] else ['+']) ++ natDigits z.natAbs)

/-- Exponent part of the string form of a decimal, following
`decimal.Decimal.__str__` (empty when no exponent is needed). -/
def decCoreExp (left dot : Int) : List Char :=
  if left = dot then [] else expChars (left - dot)

/-- Sign-less string form of a decimal with coefficient `c` and exponent
`e`: plain positional form when `e ≤ 0` and the adjusted exponent is at
least `-6`, scientific form otherwise. -/
def decToStringCore (c : Nat) (e : Int) : List Char :=
  let ds := natDigits c
  let left : Int := e + ds.length
  let dot : Int := if e ≤ 0 ∧ -6 < left then left else 1
  decCoreBody ds dot ++ decCoreExp left dot

/-- Model of `str` on a finite `decimal.Decimal`. -/
def decToString (d : Dec) : List Char :=
  (if d.neg then ['-'] else []) ++ decToStringCore d.coeff d.exp

theorem decCoreBody_mem (ds : List Char) (dot : Int)
    (h : ∀ x ∈ ds, isDigitChar x = true) :
    ∀ x ∈ decCoreBody ds dot, isDigitChar x = true ∨ x = '.' := by
  intro x hx
  unfold decCoreBody at hx
  split_ifs at hx with h1 h2
  · simp only [List.mem_cons] at hx
    rcases hx with rfl | rfl | hx
    · left; decide
    · right; rfl
    · rcases List.mem_append.mp hx with hx | hx
      · left
        have := List.eq_of_mem_replicate hx
        subst this; decide
      · exact Or.inl (h x hx)
  · rcases List.mem_append.mp hx with hx | hx
    · exact Or.inl (h x hx)
    · left
      have := List.eq_of_mem_replicate hx
      subst this; decide
  · rcases List.mem_append.mp hx with hx | hx
    · exact Or.inl (h x (List.take_subset _ _ hx))
    · simp only [List.mem_cons] at hx
      rcases hx with rfl | hx
      · right; rfl
      · exact Or.inl (h x (List.drop_subset _ _ hx))

theorem decCoreBody_not_e (ds : List Char) (dot : Int)
    (h : ∀ x ∈ ds, isDigitChar x = true) :
    ∀ x ∈ decCoreBody ds dot, isEChar x = false := by
  intro x hx
  rcases decCoreBody_mem ds dot h x hx with hd | rfl
  · exact isEChar_of_digit x hd
  · decide

theorem isEmpty_false_of_ne_nil (l : List Char) (h : l ≠ []) : l.isEmpty = false := by
  cases l with
  | nil => exact absurd rfl h
  | cons a t => rfl

theorem natDigits_isEmpty (n : Nat) : (natDigits n).isEmpty = false :=
  isEmpty_false_of_ne_nil _ (natDigits_ne_nil n)

/-- Parsing a bare digit string yields its value with exponent zero. -/
theorem noSign_plain (neg : Bool) (ds : List Char)
    (hall : ∀ x ∈ ds, isDigitChar x = true) (hne : ds ≠ []) :
    decFromStringNoSign neg ds = some ⟨neg, digitsToNat ds, 0⟩ := by
  have hE : splitAtPred isEChar ds = (ds, none) :=
    splitAtPred_none _ _ (fun x hx => isEChar_of_digit x (hall x hx))
  have hsd : splitAtPred isDotChar ds = (ds, none) :=
    splitAtPred_none _ _ (fun x hx => isDotChar_of_digit x (hall x hx))
  have ha : ds.all isDigitChar = true := List.all_eq_true.mpr hall
  have hie : ds.isEmpty = false := isEmpty_false_of_ne_nil ds hne
  simp [decFromStringNoSign, hE, hsd, ha, hie]

/-- Parsing a digit string followed by a printed exponent. -/
theorem noSign_plain_exp (neg : Bool) (ds : List Char) (z : Int)
    (hall : ∀ x ∈ ds, isDigitChar x = true) (hne : ds ≠ []) :
    decFromStringNoSign neg (ds ++ expChars z) = some ⟨neg, digitsToNat ds, z⟩ := by
  have hE : splitAtPred isEChar (ds ++ expChars z)
      = (ds, some ((if z < 0 then ['-'] else ['+']) ++ natDigits z.natAbs)) := by
    simp only [expChars]
    exact splitAtPred_app _ _ _ _ (fun x hx => isEChar_of_digit x (hall x hx)) (by decide)
  have hsd : splitAtPred isDotChar ds = (ds, none) :=
    splitAtPred_none _ _ (fun x hx => isDotChar_of_digit x (hall x hx))
  have ha : ds.all isDigitChar = true := List.all_eq_true.mpr hall
  have hie : ds.isEmpty = false := isEmpty_false_of_ne_nil ds hne
  have hda : (natDigits z.natAbs).all isDigitChar = true :=
    List.all_eq_true.mpr (natDigits_all _)
  by_cases hz : z < 0
  · have hps : parseSign ((if z < 0 then ['-'] else ['+']) ++ natDigits z.natAbs)
        = (true, natDigits z.natAbs) := by
      rw [if_pos hz]
      exact parseSign_neg _
    simp [decFromStringNoSign, hE, hsd, ha, hie, hps, natDigits_isEmpty, hda,
      digitsToNat_natDigits]
    rw [abs_of_neg hz]
    omega
  · have hps : parseSign ((if z < 0 then ['-'] else ['+']) ++ natDigits z.natAbs)
        = (false, natDigits z.natAbs) := by
      rw [if_neg hz]
      exact parseSign_pos _
    simp [decFromStringNoSign, hE, hsd, ha, hie, hps, natDigits_isEmpty, hda,
      digitsToNat_natDigits]
    omega

/-- Parsing an integer part, a decimal point and a fractional part. -/
theorem noSign_dotmid (neg : Bool) (a b : List Char)
    (hall : ∀ x ∈ a ++ b, isDigitChar x = true) (hne : a ≠ []) :
    decFromStringNoSign neg (a ++ '.' :: b) = some ⟨neg, digitsToNat (a ++ b), -(b.length : Int)⟩ := by
  have hae : ∀ x ∈ a, isDigitChar x = true := fun x hx => hall x (List.mem_append_left b hx)
  have hbe : ∀ x ∈ b, isDigitChar x = true := fun x hx => hall x (List.mem_append_right a hx)
  have hE : splitAtPred isEChar (a ++ '.' :: b) = (a ++ '.' :: b, none) := by
    refine splitAtPred_none _ _ ?_
    intro x hx
    rcases List.mem_append.mp hx with hx | hx
    · exact isEChar_of_digit x (hae x hx)
    · rcases List.mem_cons.mp hx with rfl | hx
      · decide
      · exact isEChar_of_digit x (hbe x hx)
  have hsd : splitAtPred isDotChar (a ++ '.' :: b) = (a, some b) :=
    splitAtPred_app _ _ _ _ (fun x hx => isDotChar_of_digit x (hae x hx)) (by decide)
  have ha : a.all isDigitChar = true := List.all_eq_true.mpr hae
  have hb : b.all isDigitChar = true := List.all_eq_true.mpr hbe
  have hie : a.isEmpty = false := isEmpty_false_of_ne_nil a hne
  simp [decFromStringNoSign, hE, hsd, ha, hb, hie, digitsToNat_append]

/-- Parsing an integer part, a decimal point, a fractional part and a
printed exponent. -/
theorem noSign_dotmid_exp (neg : Bool) (a b : List Char) (z : Int)
    (hall : ∀ x ∈ a ++ b, isDigitChar x = true) (hne : a ≠ []) :
    decFromStringNoSign neg (a ++ '.' :: (b ++ expChars z))
      = some ⟨neg, digitsToNat (a ++ b), z - (b.length : Int)⟩ := by
  have hae : ∀ x ∈ a, isDigitChar x = true := fun x hx => hall x (List.mem_append_left b hx)
  have hbe : ∀ x ∈ b, isDigitChar x = true := fun x hx => hall x (List.mem_append_right a hx)
  have hE : splitAtPred isEChar (a ++ '.' :: (b ++ expChars z))
      = (a ++ '.' :: b, some ((if z < 0 then ['-'] else ['+']) ++ natDigits z.natAbs)) := by
    rw [show a ++ '.' :: (b ++ expChars z)
        = (a ++ '.' :: b) ++ 'E' :: ((if z < 0 then ['-'] else ['+']) ++ natDigits z.natAbs)
      from by simp [expChars]]
    refine splitAtPred_app _ _ _ _ ?_ (by decide)
    intro x hx
    rcases List.mem_append.mp hx with hx | hx
    · exact isEChar_of_digit x (hae x hx)
    · rcases List.mem_cons.mp hx with rfl | hx
      · decide
      · exact isEChar_of_digit x (hbe x hx)
  have hsd : splitAtPred isDotChar (a ++ '.' :: b) = (a, some b) :=
    splitAtPred_app _ _ _ _ (fun x hx => isDotChar_of_digit x (hae x hx)) (by decide)
  have ha : a.all isDigitChar = true := List.all_eq_true.mpr hae
  have hb : b.all isDigitChar = true := List.all_eq_true.mpr hbe
  have hie : a.isEmpty = false := isEmpty_false_of_ne_nil a hne
  have hda : (natDigits z.natAbs).all isDigitChar = true :=
    List.all_eq_true.mpr (natDigits_all _)
  by_cases hz : z < 0
  · have hps : parseSign ((if z < 0 then ['-'] else ['+']) ++ natDigits z.natAbs)
        = (true, natDigits z.natAbs) := by
      rw [if_pos hz]
      exact parseSign_neg _
    simp [decFromStringNoSign, hE, hsd, ha, hb, hie, hps, natDigits_isEmpty, hda,
      digitsToNat_natDigits, digitsToNat_append]
    rw [abs_of_neg hz]
    omega
  · have hps : parseSign ((if z < 0 then ['-'] else ['+']) ++ natDigits z.natAbs)
        = (false, natDigits z.natAbs) := by
      rw [if_neg hz]
      exact parseSign_pos _
    simp [decFromStringNoSign, hE, hsd, ha, hb, hie, hps, natDigits_isEmpty, hda,
      digitsToNat_natDigits, digitsToNat_append]
    omega

theorem core_eq (c : Nat) (e : Int) :
    decToStringCore c e =
      decCoreBody (natDigits c)
        (if e ≤ 0 ∧ -6 < e + ((natDigits c).length : Int)
          then e + ((natDigits c).length : Int) else 1)
      ++ decCoreExp (e + ((natDigits c).length : Int))
        (if e ≤ 0 ∧ -6 < e + ((natDigits c).length : Int)
          then e + ((natDigits c).length : Int) else 1) := rfl

theorem natDigits_cons (c : Nat) : ∃ a t, natDigits c = a :: t := by
  cases h : natDigits c with
  | nil => exact absurd h (natDigits_ne_nil c)
  | cons a t => exact ⟨a, t, rfl⟩

/-- The sign-less printed form of a decimal parses back to its coefficient
and exponent. -/
theorem decFromStringNoSign_core (neg : Bool) (c : Nat) (e : Int) :
    decFromStringNoSign neg (decToStringCore c e) = some ⟨neg, c, e⟩ := by
  have hall := natDigits_all c
  have hval := digitsToNat_natDigits c
  have hne := natDigits_ne_nil c
  have hlen := natDigits_length_pos c
  rw [core_eq]
  by_cases hsci : e ≤ 0 ∧ -6 < e + ((natDigits c).length : Int)
  · rw [if_pos hsci,
      show decCoreExp (e + ((natDigits c).length : Int)) (e + ((natDigits c).length : Int)) = []
        from by simp [decCoreExp],
      List.append_nil]
    by_cases h1 : e + ((natDigits c).length : Int) ≤ 0
    · have hbody : decCoreBody (natDigits c) (e + ((natDigits c).length : Int))
          = ['0'] ++ '.' ::
            (List.replicate (-(e + ((natDigits c).length : Int))).toNat '0' ++ natDigits c) := by
        unfold decCoreBody
        rw [if_pos h1]
        rfl
      rw [hbody, noSign_dotmid neg ['0'] _ ?_ (by simp)]
      · simp only [Option.some.injEq, Dec.mk.injEq, List.singleton_append,
          digitsToNat_cons_zero, digitsToNat_zeros_append, hval,
          List.length_append, List.length_replicate]
        refine ⟨?_, ?_, ?_⟩ <;> first | trivial | omega
      · intro x hx
        rcases List.mem_append.mp hx with hx | hx
        · rw [List.mem_singleton] at hx
          subst hx; decide
        · rcases List.mem_append.mp hx with hx | hx
          · have := List.eq_of_mem_replicate hx
            subst this; decide
          · exact hall x hx
    · by_cases h2 : e = 0
      · subst h2
        have hbody : decCoreBody (natDigits c) (0 + ((natDigits c).length : Int))
            = natDigits c := by
          unfold decCoreBody
          rw [if_neg (by omega), if_pos (by omega)]
          simp
        rw [hbody, noSign_plain neg _ hall hne, hval]
      · have he : e < 0 := by
          rcases lt_or_eq_of_le hsci.1 with h | h
          · exact h
          · exact absurd h h2
        have hbody : decCoreBody (natDigits c) (e + ((natDigits c).length : Int))
            = (natDigits c).take (e + ((natDigits c).length : Int)).toNat
              ++ '.' :: (natDigits c).drop (e + ((natDigits c).length : Int)).toNat := by
          unfold decCoreBody
          rw [if_neg h1, if_neg (by omega)]
        have hall2 : ∀ x ∈ (natDigits c).take (e + ((natDigits c).length : Int)).toNat
            ++ (natDigits c).drop (e + ((natDigits c).length : Int)).toNat,
            isDigitChar x = true := by
          rw [List.take_append_drop]
          exact hall
        have hne2 : (natDigits c).take (e + ((natDigits c).length : Int)).toNat ≠ [] := by
          intro hnil
          have hl := congrArg List.length hnil
          rw [List.length_take] at hl
          simp only [List.length_nil] at hl
          omega
        rw [hbody, noSign_dotmid neg _ _ hall2 hne2]
        simp only [Option.some.injEq, Dec.mk.injEq, List.take_append_drop, hval,
          List.length_drop]
        refine ⟨?_, ?_, ?_⟩ <;> first | trivial | omega
  · rw [if_neg hsci]
    have hne1 : e + ((natDigits c).length : Int) ≠ 1 := by
      intro h1
      exact hsci ⟨by omega, by omega⟩
    have hexp : decCoreExp (e + ((natDigits c).length : Int)) 1
        = expChars (e + ((natDigits c).length : Int) - 1) := by
      unfold decCoreExp
      rw [if_neg hne1]
    by_cases hn1 : (natDigits c).length = 1
    · have hbody : decCoreBody (natDigits c) 1 = natDigits c := by
        unfold decCoreBody
        rw [if_neg (by omega), if_pos (by simp [hn1])]
        simp [hn1]
      rw [hbody, hexp, noSign_plain_exp neg _ _ hall hne, hval]
      simp only [Option.some.injEq, Dec.mk.injEq]
      refine ⟨?_, ?_, ?_⟩ <;> first | trivial | omega
    · obtain ⟨a, t, hds⟩ := natDigits_cons c
      have hlt : t ≠ [] := by
        intro h
        rw [hds, h] at hn1
        exact hn1 rfl
      have hbody : decCoreBody (natDigits c) 1 = [a] ++ '.' :: t := by
        unfold decCoreBody
        rw [if_neg (by omega), if_neg (by omega)]
        rw [hds]
        cases t with
        | nil => exact absurd rfl hlt
        | cons b u => simp [List.take_succ_cons, List.drop_succ_cons]
      have hall2 : ∀ x ∈ [a] ++ t, isDigitChar x = true := by
        intro x hx
        refine hall x ?_
        rw [hds]
        simpa using hx
      rw [hbody, hexp,
        show ([a] ++ '.' :: t) ++ expChars (e + ((natDigits c).length : Int) - 1)
          = [a] ++ '.' :: (t ++ expChars (e + ((natDigits c).length : Int) - 1)) from by simp,
        noSign_dotmid_exp neg [a] t _ hall2 (by simp)]
      have hc : digitsToNat ([a] ++ t) = c := by
        rw [show ([a] ++ t) = a :: t from rfl, ← hds]
        exact hval
      have hlen2 : (natDigits c).length = t.length + 1 := by
        rw [hds]
        simp
      simp only [Option.some.injEq, Dec.mk.injEq, hc]
      refine ⟨?_, ?_, ?_⟩ <;> first | trivial | omega

theorem decCoreBody_cons (c0 : Char) (t : List Char) (dot : Int) :
    ∃ r, decCoreBody (c0 :: t) dot = (if dot ≤ 0 then '0' else c0) :: r := by
  unfold decCoreBody
  split_ifs with h1 h2
  · exact ⟨'.' :: (List.replicate (-dot).toNat '0' ++ (c0 :: t)), rfl⟩
  · exact ⟨t ++ List.replicate (dot - ((c0 :: t).length : Int)).toNat '0', by simp⟩
  · obtain ⟨m, hm⟩ : ∃ m, dot.toNat = m + 1 := ⟨dot.toNat - 1, by omega⟩
    refine ⟨t.take m ++ '.' :: t.drop m, ?_⟩
    rw [hm, List.take_succ_cons, List.drop_succ_cons]
    simp

/-- The printed form of a decimal has no leading sign character. -/
theorem parseSign_core (c : Nat) (e : Int) :
    parseSign (decToStringCore c e) = (false, decToStringCore c e) := by
  obtain ⟨a, t, hds⟩ := natDigits_cons c
  have hda : isDigitChar a = true := natDigits_all c a (hds ▸ List.mem_cons_self a t)
  rw [core_eq c e, hds]
  obtain ⟨r, hr⟩ := decCoreBody_cons a t
    (if e ≤ 0 ∧ -6 < e + (((a :: t).length : Nat) : Int)
      then e + (((a :: t).length : Nat) : Int) else 1)
  rw [hr, List.cons_append]
  apply parseSign_other
  · split_ifs <;> first
      | decide
      | exact isDigitChar_ne_of a '-' hda (by decide)
  · split_ifs <;> first
      | decide
      | exact isDigitChar_ne_of a '+' hda (by decide)

/-- Round trip: parsing the printed form of any decimal returns exactly the
same decimal, trailing zeros included. -/
theorem decFromString_decToString (d : Dec) : decFromString (decToString d) = some d := by
  obtain ⟨neg, c, e⟩ := d
  cases neg
  · show decFromString (decToStringCore c e) = some ⟨false, c, e⟩
    unfold decFromString
    rw [parseSign_core]
    exact decFromStringNoSign_core false c e
  · show decFromString ('-' :: decToStringCore c e) = some ⟨true, c, e⟩
    unfold decFromString
    rw [parseSign_neg]
    exact decFromStringNoSign_core true c e

/-- Raw JSON-like input values fed to validation (Python objects after JSON
decoding or direct construction): strings, integers, sequences (lists and
tuples), and mappings with string keys. -/
inductive RawVal where
  | vstr : List Char → RawVal
  | vint : Int → RawVal
  | vlist : List RawVal → RawVal
  | vmap : List (List Char × RawVal) → RawVal

/-- One step of an error location path: a mapping key or a sequence index. -/
inductive LocItem where
  | key : List Char → LocItem
  | idx : Nat → LocItem
deriving DecidableEq

/-- Kinds of pydantic validation errors relevant to this schema. -/
inductive ErrType where
  | missing
  | modelType
  | listType
  | dictType
  | decimalParsing
  | decimalType
  | jsonInvalid
deriving DecidableEq

/-- One structured sub-error of a `ValidationError`: location and kind. -/
structure ValErr where
  loc : List LocItem
  typ : ErrType
deriving DecidableEq

def priceKey : List Char := "price".data

def quantityKey : List Char := "quantity".data

def bidsKey : List Char := "bids".data

def asksKey : List Char := "asks".data

/-- Mapping lookup (Python `dict` access; keys of a Python dict are unique,
so first-match lookup agrees with it). -/
def assocLookup {α : Type} (k : List Char) : List (List Char × α) → Option α
  | [] => none
  | (k2, v) :: rest => if k2 = k then some v else assocLookup k rest

/-- The `parse_list` before-validator of `OrderBookEntry`: a sequence of
exactly two elements becomes `{price: elem0, quantity: elem1}`; any other
input is returned unchanged. -/
def parse_list (data : RawVal) : RawVal :=
  match data with
  | .vlist [a, b] => .vmap [(priceKey, a), (quantityKey, b)]
  | _ => data

/-- A validated `OrderBookEntry`: exact-decimal price and quantity. -/
structure OrderBookEntry where
  price : Dec
  quantity : Dec
deriving DecidableEq

/-- Conversion of one raw value to a `Decimal` as pydantic performs it for a
`Decimal` field: strings through the `Decimal` constructor, integers
exactly with exponent zero; sequences and mappings are not decimals. -/
def rawToDec : RawVal → Option Dec
  | .vstr s => decFromString s
  | .vint n => some ⟨decide (n < 0), n.natAbs, 0⟩
  | _ => none

/-- Combine two field or element validations as pydantic does: both succeed
and the results are combined, or the whole validation fails with the errors
of both collected in order. -/
def combine2 {A B C : Type} (f : A -> B -> C) (x : Except (List ValErr) A)
    (y : Except (List ValErr) B) : Except (List ValErr) C :=
  match x, y with
  | .ok a, .ok b => .ok (f a b)
  | .ok _, .error e2 => .error e2
  | .error e1, .ok _ => .error e1
  | .error e1, .error e2 => .error (e1 ++ e2)

/-- Validation of one `Decimal` field of `OrderBookEntry` from an optional
mapping value: a missing key is a `missing` error at the field, an
unparsable string a `decimalParsing` error, a non-scalar a `decimalType`
error. -/
def validateDecField (name : List Char) (v : Option RawVal) : Except (List ValErr) Dec :=
  match v with
  | none => .error [⟨[.key name], .missing⟩]
  | some (.vstr s) =>
    match decFromString s with
    | some d => .ok d
    | none => .error [⟨[.key name], .decimalParsing⟩]
  | some (.vint n) => .ok ⟨decide (n < 0), n.natAbs, 0⟩
  | some _ => .error [⟨[.key name], .decimalType⟩]

/-- Model of `OrderBookEntry.model_validate`: run the `parse_list`
before-validator, then validate the two declared fields of the resulting
mapping in declaration order, ignoring extra keys (the pydantic default)
and collecting the errors of both fields; any non-mapping input after the
before-validator is a single whole-input `modelType` error. -/
def validateEntry (data : RawVal) : Except (List ValErr) OrderBookEntry :=
  match parse_list data with
  | .vmap kvs =>
    combine2 OrderBookEntry.mk
      (validateDecField priceKey (assocLookup priceKey kvs))
      (validateDecField quantityKey (assocLookup quantityKey kvs))
  | _ => .error [⟨[], .modelType⟩]

/-- Model of `OrderBookEntry.model_dump_json`: the compact canonical form
`\x7b"price":"<str(price)>","quantity":"<str(quantity)>"\x7d` — field order
`price` then `quantity`, numeric values quoted, no whitespace. -/
def model_dump_json (e : OrderBookEntry) : List Char :=
  ['{', '"'] ++ priceKey ++ ['"', ':', '"'] ++ decToString e.price ++ ['"', ',', '"']
    ++ quantityKey ++ ['"', ':', '"'] ++ decToString e.quantity ++ ['"', '}']

/-- Read one JSON string body (after the opening quote) up to the closing
quote.  Escape sequences never occur in the canonical output, so a
backslash is not accepted here. -/
def takeJsonStr : List Char → Option (List Char × List Char)
  | [] => none
  | c :: rest =>
    if c = '"' then some ([], rest)
    else if c = '\\' then none
    else
      match takeJsonStr rest with
      | some (sr, r) => some (c :: sr, r)
      | none => none

/-- Parse the members of a flat JSON object of string values, after the
opening brace, up to and including the closing brace.  Fuel bounds the
recursion by the input length. -/
def parseJsonPairs : Nat → List Char → Option (List (List Char × List Char) × List Char)
  | 0, _ => none
  | fuel + 1, s =>
    match s with
    | c :: rest =>
      if c = '"' then
        match takeJsonStr rest with
        | some (k, r1) =>
          match r1 with
          | c1 :: c2 :: r2 =>
            if c1 = ':' ∧ c2 = '"' then
              match takeJsonStr r2 with
              | some (v, r3) =>
                match r3 with
                | c3 :: r4 =>
                  if c3 = ',' then
                    match parseJsonPairs fuel r4 with
                    | some (kvs, r5) => some ((k, v) :: kvs, r5)
                    | none => none
                  else if c3 = '}' then some ([(k, v)], r4)
                  else none
                | [] => none
              | none => none
            else none
          | _ => none
        | none => none
      else none
    | [] => none

/-- Model of the JSON decoding step restricted to the sublanguage of compact
flat objects with string values, which is the language of the canonical
Entry serialization. -/
def parseJsonFlatObj (s : List Char) : Option (List (List Char × List Char)) :=
  match s with
  | c :: rest =>
    if c = '{' then
      match rest with
      | c2 :: rest2 =>
        if c2 = '}' then (if rest2 = [] then some [] else none)
        else
          match parseJsonPairs s.length rest with
          | some (kvs, r) => if r = [] then some kvs else none
          | none => none
      | [] => none
    else none
  | [] => none

/-- Model of `OrderBookEntry.model_validate_json`: decode the JSON text,
then validate the decoded mapping. -/
def model_validate_json (s : List Char) : Except (List ValErr) OrderBookEntry :=
  match parseJsonFlatObj s with
  | none => .error [⟨[], .jsonInvalid⟩]
  | some kvs => validateEntry (.vmap (kvs.map (fun kv => (kv.1, RawVal.vstr kv.2))))

/-- A validated `OrderBook`: bid entries and ask entries. -/
structure OrderBook where
  bids : List OrderBookEntry
  asks : List OrderBookEntry
deriving DecidableEq

/-- Validate one element of a bids/asks list, prefixing error locations
with the field key and the element index. -/
def validateEntryAt (fieldKey : List Char) (i : Nat) (v : RawVal) :
    Except (List ValErr) OrderBookEntry :=
  match validateEntry v with
  | .ok e => .ok e
  | .error errs => .error (errs.map (fun er => ⟨.key fieldKey :: .idx i :: er.loc, er.typ⟩))

/-- Validate the elements of a bids/asks list in order starting at index
`i`, collecting the errors of every failing element. -/
def validateEntryList (fieldKey : List Char) (i : Nat) :
    List RawVal → Except (List ValErr) (List OrderBookEntry)
  | [] => .ok []
  | v :: rest =>
    combine2 List.cons (validateEntryAt fieldKey i v)
      (validateEntryList fieldKey (i + 1) rest)

/-- Validate one list field of `OrderBook` from an optional mapping value. -/
def validateListField (fieldKey : List Char) (v : Option RawVal) :
    Except (List ValErr) (List OrderBookEntry) :=
  match v with
  | none => .error [⟨[.key fieldKey], .missing⟩]
  | some (.vlist l) => validateEntryList fieldKey 0 l
  | some _ => .error [⟨[.key fieldKey], .listType⟩]

/-- Model of `OrderBook.model_validate`: validate the `bids` and `asks`
fields of a mapping in declaration order, ignoring extra keys (the pydantic
default) and collecting the errors of both fields. -/
def validateBook (data : RawVal) : Except (List ValErr) OrderBook :=
  match data with
  | .vmap kvs =>
    combine2 OrderBook.mk
      (validateListField bidsKey (assocLookup bidsKey kvs))
      (validateListField asksKey (assocLookup asksKey kvs))
  | _ => .error [⟨[], .modelType⟩]

/-- Validate one keyed book, prefixing error locations with the key. -/
def validateBookAt (k : List Char) (v : RawVal) : Except (List ValErr) OrderBook :=
  match validateBook v with
  | .ok b => .ok b
  | .error errs => .error (errs.map (fun er => ⟨.key k :: er.loc, er.typ⟩))

/-- Validate every keyed book of a snapshot in order, collecting the errors
of every failing book; all-or-nothing. -/
def validateBookPairs :
    List (List Char × RawVal) → Except (List ValErr) (List (List Char × OrderBook))
  | [] => .ok []
  | (k, v) :: rest =>
    combine2 (fun b bs => (k, b) :: bs) (validateBookAt k v) (validateBookPairs rest)

/-- Model of `all_order_books_T.validate_python` (a `TypeAdapter` for
`dict[str, OrderBook]`): the input must be a mapping and every value must
validate as an `OrderBook`. -/
def all_order_books_validate (data : RawVal) :
    Except (List ValErr) (List (List Char × OrderBook)) :=
  match data with
  | .vmap kvs => validateBookPairs kvs
  | _ => .error [⟨[], .dictType⟩]

theorem decToString_clean (d : Dec) : ∀ x ∈ decToString d, x ≠ '"' ∧ x ≠ '\\' := by
  intro x hx
  unfold decToString at hx
  rcases List.mem_append.mp hx with hx | hx
  · split_ifs at hx
    · rw [List.mem_singleton] at hx
      subst hx; decide
    · exact absurd hx (List.not_mem_nil x)
  · rw [core_eq] at hx
    rcases List.mem_append.mp hx with hx | hx
    · rcases decCoreBody_mem _ _ (natDigits_all d.coeff) x hx with hd | rfl
      · exact ⟨isDigitChar_ne_of x '"' hd (by decide), isDigitChar_ne_of x '\\' hd (by decide)⟩
      · decide
    · unfold decCoreExp at hx
      split_ifs at hx <;>
        first
        | exact absurd hx (List.not_mem_nil x)
        | (unfold expChars at hx
           rcases List.mem_cons.mp hx with rfl | hx
           · decide
           · rcases List.mem_append.mp hx with hx | hx
             · split_ifs at hx <;> rw [List.mem_singleton] at hx <;> subst hx <;> decide
             · have hd := natDigits_all _ x hx
               exact ⟨isDigitChar_ne_of x '"' hd (by decide),
                 isDigitChar_ne_of x '\\' hd (by decide)⟩)

theorem takeJsonStr_clean (s rest : List Char) (h : ∀ c ∈ s, c ≠ '"' ∧ c ≠ '\\') :
    takeJsonStr (s ++ '"' :: rest) = some (s, rest) := by
  induction s with
  | nil => simp [takeJsonStr]
  | cons c t ih =>
    obtain ⟨h1, h2⟩ := h c (List.mem_cons_self c t)
    rw [List.cons_append]
    simp only [takeJsonStr, if_neg h1, if_neg h2]
    rw [ih (fun y hy => h y (List.mem_cons_of_mem c hy))]

theorem parseJsonPairs_last (fuel : Nat) (k v rest : List Char)
    (hk : ∀ c ∈ k, c ≠ '"' ∧ c ≠ '\\') (hv : ∀ c ∈ v, c ≠ '"' ∧ c ≠ '\\') :
    parseJsonPairs (fuel + 1) ('"' :: (k ++ '"' :: ':' :: '"' :: (v ++ '"' :: '}' :: rest)))
      = some ([(k, v)], rest) := by
  simp only [parseJsonPairs, if_pos rfl]
  rw [takeJsonStr_clean k _ hk]
  simp only [if_pos (And.intro rfl rfl)]
  rw [takeJsonStr_clean v _ hv]
  simp

theorem parseJsonPairs_cons (fuel : Nat) (k v rest : List Char)
    (kvs : List (List Char × List Char)) (r : List Char)
    (hk : ∀ c ∈ k, c ≠ '"' ∧ c ≠ '\\') (hv : ∀ c ∈ v, c ≠ '"' ∧ c ≠ '\\')
    (hrec : parseJsonPairs fuel rest = some (kvs, r)) :
    parseJsonPairs (fuel + 1) ('"' :: (k ++ '"' :: ':' :: '"' :: (v ++ '"' :: ',' :: rest)))
      = some ((k, v) :: kvs, r) := by
  simp only [parseJsonPairs, if_pos rfl]
  rw [takeJsonStr_clean k _ hk]
  simp only [if_pos (And.intro rfl rfl)]
  rw [takeJsonStr_clean v _ hv]
  simp [hrec]

theorem priceKey_clean : ∀ c ∈ priceKey, c ≠ '"' ∧ c ≠ '\\' := by decide

theorem quantityKey_clean : ∀ c ∈ quantityKey, c ≠ '"' ∧ c ≠ '\\' := by decide

theorem parseJsonFlatObj_dump (e : OrderBookEntry) :
    parseJsonFlatObj (model_dump_json e)
      = some [(priceKey, decToString e.price), (quantityKey, decToString e.quantity)] := by
  have hform : model_dump_json e
      = '{' :: '"' :: (priceKey ++ '"' :: ':' :: '"' :: (decToString e.price ++ '"' :: ',' ::
        ('"' :: (quantityKey ++ '"' :: ':' :: '"' :: (decToString e.quantity
          ++ '"' :: '}' :: []))))) := by
    simp [model_dump_json]
  rw [hform]
  simp only [parseJsonFlatObj, if_pos rfl, List.length_cons]
  rw [if_neg (by decide : ¬('"' : Char) = '}')]
  rw [parseJsonPairs_cons _ priceKey (decToString e.price) _ _ []
    priceKey_clean (decToString_clean e.price)
    (parseJsonPairs_last _ quantityKey (decToString e.quantity) []
      quantityKey_clean (decToString_clean e.quantity))]
  simp

/-- Claim C1: for every valid Entry (an `OrderBookEntry` with exact-decimal
price and quantity), parsing the compact JSON serialization of the entry
yields an entry equal to it, and the textual round trip preserves the exact
decimal representation including trailing zero digits. -/
theorem C1_entry_json_round_trip (e : OrderBookEntry) :
    model_validate_json (model_dump_json e) = Except.ok e := by
  unfold model_validate_json
  rw [parseJsonFlatObj_dump]
  have hne : ¬priceKey = quantityKey := by decide
  have h1 : validateDecField priceKey (some (RawVal.vstr (decToString e.price)))
      = Except.ok e.price := by
    simp only [validateDecField]
    rw [decFromString_decToString]
  have h2 : validateDecField quantityKey (some (RawVal.vstr (decToString e.quantity)))
      = Except.ok e.quantity := by
    simp only [validateDecField]
    rw [decFromString_decToString]
  simp only [List.map_cons, List.map_nil]
  show validateEntry (.vmap [(priceKey, .vstr (decToString e.price)),
    (quantityKey, .vstr (decToString e.quantity))]) = Except.ok e
  have hl1 : assocLookup priceKey
      [(priceKey, RawVal.vstr (decToString e.price)),
        (quantityKey, RawVal.vstr (decToString e.quantity))]
      = some (RawVal.vstr (decToString e.price)) := by
    simp [assocLookup]
  have hl2 : assocLookup quantityKey
      [(priceKey, RawVal.vstr (decToString e.price)),
        (quantityKey, RawVal.vstr (decToString e.quantity))]
      = some (RawVal.vstr (decToString e.quantity)) := by
    simp [assocLookup, hne]
  simp only [validateEntry, parse_list, hl1, hl2, h1, h2, combine2]

/-- Claim C2: for all values `p` and `q`, normalizing the mapping
`\x7b"price": p, "quantity": q\x7d` produces an Entry identical to the one
produced by normalizing the two-element sequence `[p, q]` (proved for
arbitrary raw values, hence in particular for numeric and numeric-string
values). -/
theorem C2_map_seq_equiv (p q : RawVal) :
    validateEntry (.vmap [(priceKey, p), (quantityKey, q)])
      = validateEntry (.vlist [p, q]) := rfl

/-- Claim C3: for every plain decimal literal (integer digits, a point,
fractional digits), the Entry Normalizer yields exactly the decimal with
the literal digits as coefficient and the fractional length as negative
exponent (so trailing zeros and digit count are preserved), and its
rational value is exactly the denoted fraction with no rounding: the
string `0.1` yields exactly one tenth. -/
theorem C3_exact_decimal (I F : List Char)
    (hI : ∀ c ∈ I, isDigitChar c = true) (hF : ∀ c ∈ F, isDigitChar c = true)
    (hne : I ≠ []) :
    validateEntry (.vlist [.vstr (I ++ '.' :: F), .vstr (I ++ '.' :: F)])
      = Except.ok ⟨⟨false, digitsToNat (I ++ F), -(F.length : Int)⟩,
          ⟨false, digitsToNat (I ++ F), -(F.length : Int)⟩⟩
    ∧ Dec.toRat ⟨false, digitsToNat (I ++ F), -(F.length : Int)⟩
      = (digitsToNat I : ℚ) + (digitsToNat F : ℚ) / (10 : ℚ) ^ F.length := by
  have hall : ∀ c ∈ I ++ F, isDigitChar c = true := by
    intro c hc
    rcases List.mem_append.mp hc with hc | hc
    · exact hI c hc
    · exact hF c hc
  constructor
  · have hd : decFromString (I ++ '.' :: F)
        = some ⟨false, digitsToNat (I ++ F), -(F.length : Int)⟩ := by
      cases I with
      | nil => exact absurd rfl hne
      | cons c0 t =>
        have hc0 : isDigitChar c0 = true := hI c0 (List.mem_cons_self c0 t)
        unfold decFromString
        rw [List.cons_append,
          parseSign_other c0 _ (isDigitChar_ne_of c0 '-' hc0 (by decide))
            (isDigitChar_ne_of c0 '+' hc0 (by decide))]
        rw [← List.cons_append]
        exact noSign_dotmid false (c0 :: t) F hall hne
    have h1 : validateDecField priceKey (some (RawVal.vstr (I ++ '.' :: F)))
        = Except.ok ⟨false, digitsToNat (I ++ F), -(F.length : Int)⟩ := by
      simp only [validateDecField]
      rw [hd]
    have h2 : validateDecField quantityKey (some (RawVal.vstr (I ++ '.' :: F)))
        = Except.ok ⟨false, digitsToNat (I ++ F), -(F.length : Int)⟩ := by
      simp only [validateDecField]
      rw [hd]
    have hl1 : assocLookup priceKey
        [(priceKey, RawVal.vstr (I ++ '.' :: F)), (quantityKey, RawVal.vstr (I ++ '.' :: F))]
        = some (RawVal.vstr (I ++ '.' :: F)) := by
      simp [assocLookup]
    have hl2 : assocLookup quantityKey
        [(priceKey, RawVal.vstr (I ++ '.' :: F)), (quantityKey, RawVal.vstr (I ++ '.' :: F))]
        = some (RawVal.vstr (I ++ '.' :: F)) := by
      simp [assocLookup, (by decide : ¬priceKey = quantityKey)]
    simp only [validateEntry, parse_list, hl1, hl2, h1, h2, combine2]
  · unfold Dec.toRat
    simp only [Bool.false_eq_true, if_false, one_mul, digitsToNat_append]
    rw [zpow_neg, zpow_natCast]
    have h10 : ((10 : ℚ) ^ F.length) ≠ 0 := by positivity
    push_cast
    field_simp

/-- Claim C3 witness: the literal `0.1` yields exactly one tenth, with
coefficient 1 and exponent -1. -/
theorem C3_exact_decimal_witness :
    validateEntry (.vlist [.vstr "0.1".data, .vstr "0.1".data])
      = Except.ok ⟨⟨false, 1, -1⟩, ⟨false, 1, -1⟩⟩
    ∧ Dec.toRat ⟨false, 1, -1⟩ = 1 / 10 := by
  have h := C3_exact_decimal ['0'] ['1'] (by decide) (by decide) (by decide)
  refine ⟨h.1, ?_⟩
  have h2 : Dec.toRat ⟨false, 1, -1⟩
      = (digitsToNat ['0'] : ℚ) + (digitsToNat ['1'] : ℚ) / (10 : ℚ) ^ (['1'] : List Char).length :=
    h.2
  rw [h2]
  norm_num [show digitsToNat ['0'] = 0 from rfl, show digitsToNat ['1'] = 1 from rfl,
    show (['1'] : List Char).length = 1 from rfl]

theorem validateDecField_rawToDec (name : List Char) (v : RawVal) (d : Dec)
    (h : rawToDec v = some d) : validateDecField name (some v) = Except.ok d := by
  cases v with
  | vstr s =>
    simp only [rawToDec] at h
    simp only [validateDecField, h]
  | vint n =>
    simp only [rawToDec, Option.some.injEq] at h
    simp only [validateDecField, h]
  | vlist l => simp [rawToDec] at h
  | vmap kvs => simp [rawToDec] at h

/-- Claim C9: the Entry Normalizer enforces no sign or range constraint:
any pair of values that convert to decimals — including zero and negative
values — validates successfully and the Entry carries exactly the
converted decimals. -/
theorem C9_no_sign_constraint (p q : RawVal) (dp dq : Dec)
    (hp : rawToDec p = some dp) (hq : rawToDec q = some dq) :
    validateEntry (.vlist [p, q]) = Except.ok ⟨dp, dq⟩ := by
  have h1 := validateDecField_rawToDec priceKey p dp hp
  have h2 := validateDecField_rawToDec quantityKey q dq hq
  have hl1 : assocLookup priceKey [(priceKey, p), (quantityKey, q)] = some p := by
    simp [assocLookup]
  have hl2 : assocLookup quantityKey [(priceKey, p), (quantityKey, q)] = some q := by
    simp [assocLookup, (by decide : ¬priceKey = quantityKey)]
  simp only [validateEntry, parse_list, hl1, hl2, h1, h2, combine2]

/-- Claim C9 witness: a negative price and a zero quantity are accepted
unchanged. -/
theorem C9_no_sign_constraint_witness :
    validateEntry (.vlist [.vstr "-5.0".data, .vint 0])
      = Except.ok ⟨⟨true, 50, -1⟩, ⟨false, 0, 0⟩⟩ :=
  C9_no_sign_constraint (.vstr "-5.0".data) (.vint 0) ⟨true, 50, -1⟩ ⟨false, 0, 0⟩ rfl rfl

/-- Claim C10: validating the empty keyed snapshot succeeds with the empty
mapping. -/
theorem C10_empty_snapshot : all_order_books_validate (.vmap []) = Except.ok [] := rfl

/-- Claim C7 counterexample: on the one-element sequence `["50000.0"]`,
validation fails with exactly one error, but that error is a whole-input
`modelType` error with an empty location, not an error for a missing or
extra field. -/
theorem C7_counterexample :
    validateEntry (.vlist [.vstr "50000.0".data])
      = Except.error [⟨[], ErrType.modelType⟩]
    ∧ ErrType.modelType ≠ ErrType.missing
    ∧ (⟨[], ErrType.modelType⟩ : ValErr).loc = [] :=
  ⟨rfl, by decide, rfl⟩

/-- Claim C7 (amended): for every sequence input whose length is not
exactly two, validation fails with exactly one error, and that error is a
whole-input `modelType` error (the sequence is passed through unchanged by
the before-validator and rejected as not a valid mapping), not an error
for a missing or extra field. -/
theorem C7_seq_length (l : List RawVal) (h : l.length ≠ 2) :
    validateEntry (.vlist l) = Except.error [⟨[], ErrType.modelType⟩] := by
  cases l with
  | nil => rfl
  | cons a t =>
    cases t with
    | nil => rfl
    | cons b u =>
      cases u with
      | nil => exact absurd rfl h
      | cons c2 w => rfl

/-- Claim C7 witness: a three-element sequence fails with the single
whole-input error. -/
theorem C7_seq_length_witness :
    validateEntry (.vlist [.vstr "50000.0".data, .vstr "0.1".data, .vstr "extra".data])
      = Except.error [⟨[], ErrType.modelType⟩] :=
  C7_seq_length [.vstr "50000.0".data, .vstr "0.1".data, .vstr "extra".data] (by decide)

theorem assocLookup_filter (k : List Char) (p : List Char × RawVal → Bool)
    (hp : ∀ v, p (k, v) = true) (kvs : List (List Char × RawVal)) :
    assocLookup k (kvs.filter p) = assocLookup k kvs := by
  induction kvs with
  | nil => rfl
  | cons kv rest ih =>
    obtain ⟨k2, v2⟩ := kv
    by_cases hk : k2 = k
    · subst hk
      rw [List.filter_cons, if_pos (hp v2)]
      simp [assocLookup]
    · rw [List.filter_cons]
      by_cases hpv : p (k2, v2) = true
      · rw [if_pos hpv]
        simp [assocLookup, hk, ih]
      · rw [if_neg hpv]
        simp [assocLookup, hk, ih]

/-- Claim C6 counterexample: a mapping with an extra `status` key beyond
`price` and `quantity` validates successfully (extra keys are ignored by
default), contradicting the claim that it fails with a validation error. -/
theorem C6_counterexample :
    validateEntry (.vmap [(priceKey, .vstr "1".data), (quantityKey, .vstr "2".data),
      ("status".data, .vstr "ok".data)])
      = Except.ok ⟨⟨false, 1, 0⟩, ⟨false, 2, 0⟩⟩ := rfl

/-- Claim C6 (amended): when the Entry Normalizer is given a mapping input,
only the `price` and `quantity` bindings are consulted: extra keys beyond
those two are silently ignored (validation behaves exactly as on the
restriction of the mapping to those two keys), while a mapping missing
`price` or `quantity` fails with a validation error identifying the
missing field. -/
theorem C6_mapping_keys (kvs : List (List Char × RawVal)) :
    validateEntry (.vmap kvs)
      = validateEntry (.vmap (kvs.filter
          (fun kv => decide (kv.1 = priceKey ∨ kv.1 = quantityKey))))
    ∧ (assocLookup priceKey kvs = none →
        ∃ errs, validateEntry (.vmap kvs) = Except.error errs
          ∧ (⟨[LocItem.key priceKey], ErrType.missing⟩ : ValErr) ∈ errs)
    ∧ (assocLookup quantityKey kvs = none →
        ∃ errs, validateEntry (.vmap kvs) = Except.error errs
          ∧ (⟨[LocItem.key quantityKey], ErrType.missing⟩ : ValErr) ∈ errs) := by
  refine ⟨?_, ?_, ?_⟩
  · simp only [validateEntry, parse_list]
    rw [assocLookup_filter priceKey _ (fun v => by simp) kvs,
      assocLookup_filter quantityKey _ (fun v => by simp) kvs]
  · intro hmiss
    have h1 : validateDecField priceKey (assocLookup priceKey kvs)
        = Except.error [⟨[LocItem.key priceKey], ErrType.missing⟩] := by
      rw [hmiss]
      rfl
    simp only [validateEntry, parse_list, h1]
    cases h2 : validateDecField quantityKey (assocLookup quantityKey kvs) with
    | ok q => exact ⟨_, rfl, by simp⟩
    | error e2 => exact ⟨_, rfl, by simp⟩
  · intro hmiss
    have h2 : validateDecField quantityKey (assocLookup quantityKey kvs)
        = Except.error [⟨[LocItem.key quantityKey], ErrType.missing⟩] := by
      rw [hmiss]
      rfl
    simp only [validateEntry, parse_list, h2]
    cases h1 : validateDecField priceKey (assocLookup priceKey kvs) with
    | ok p => exact ⟨_, rfl, by simp⟩
    | error e1 => exact ⟨_, rfl, by simp⟩

/-- Claim C6 witness: a mapping with only `price` fails with a `missing`
error identifying `quantity`. -/
theorem C6_mapping_keys_witness :
    ∃ errs, validateEntry (.vmap [(priceKey, RawVal.vstr "1".data)]) = Except.error errs
      ∧ (⟨[LocItem.key quantityKey], ErrType.missing⟩ : ValErr) ∈ errs :=
  (C6_mapping_keys [(priceKey, RawVal.vstr "1".data)]).2.2 rfl

/-- Claim C8: extra top-level keys on a raw book mapping are silently
ignored: validation behaves exactly as on the restriction of the mapping
to `bids` and `asks`, and in particular succeeds with the same Book
whenever the restricted mapping validates. -/
theorem C8_extra_book_keys (kvs : List (List Char × RawVal)) :
    validateBook (.vmap kvs)
      = validateBook (.vmap (kvs.filter
          (fun kv => decide (kv.1 = bidsKey ∨ kv.1 = asksKey))))
    ∧ ∀ B, validateBook (.vmap (kvs.filter
          (fun kv => decide (kv.1 = bidsKey ∨ kv.1 = asksKey)))) = Except.ok B →
        validateBook (.vmap kvs) = Except.ok B := by
  have heq : validateBook (.vmap kvs)
      = validateBook (.vmap (kvs.filter
          (fun kv => decide (kv.1 = bidsKey ∨ kv.1 = asksKey)))) := by
    simp only [validateBook]
    rw [assocLookup_filter bidsKey _ (fun v => by simp) kvs,
      assocLookup_filter asksKey _ (fun v => by simp) kvs]
  exact ⟨heq, fun B hB => heq.trans hB⟩

/-- Claim C8 witness: a raw book with `status`, `lastUpdate` and
`lastTradePrice` extra keys validates to the same Book as without them. -/
theorem C8_extra_book_keys_witness :
    validateBook (.vmap [("status".data, RawVal.vstr "ok".data),
      ("lastTradePrice".data, RawVal.vstr "35650565900".data),
      (bidsKey, RawVal.vlist [RawVal.vlist [RawVal.vstr "3".data, RawVal.vstr "4".data]]),
      (asksKey, RawVal.vlist [])])
      = Except.ok ⟨[⟨⟨false, 3, 0⟩, ⟨false, 4, 0⟩⟩], []⟩ :=
  (C8_extra_book_keys [("status".data, RawVal.vstr "ok".data),
    ("lastTradePrice".data, RawVal.vstr "35650565900".data),
    (bidsKey, RawVal.vlist [RawVal.vlist [RawVal.vstr "3".data, RawVal.vstr "4".data]]),
    (asksKey, RawVal.vlist [])]).2 ⟨[⟨⟨false, 3, 0⟩, ⟨false, 4, 0⟩⟩], []⟩ rfl

theorem validateEntryList_forall2 (key : List Char) (raws : List RawVal)
    (es : List OrderBookEntry)
    (h : List.Forall₂ (fun v e => validateEntry v = Except.ok e) raws es) :
    ∀ i, validateEntryList key i raws = Except.ok es := by
  induction h with
  | nil => intro i; rfl
  | cons hv hrest ih =>
    intro i
    simp only [validateEntryList, validateEntryAt, hv, ih (i + 1), combine2]

/-- Claim C4: for every raw book mapping whose bids and asks lists consist
of elements each validating to an Entry, the Book Assembler succeeds and
the resulting Book has exactly the same number of bid and ask entries, in
the input order, each equal to the Entry Normalizer result on the
corresponding raw element (the element-wise correspondence is the
`Forall₂` hypothesis). -/
theorem C4_book_assembler (rawBids rawAsks : List RawVal)
    (bids asks : List OrderBookEntry)
    (hb : List.Forall₂ (fun v e => validateEntry v = Except.ok e) rawBids bids)
    (ha : List.Forall₂ (fun v e => validateEntry v = Except.ok e) rawAsks asks) :
    validateBook (.vmap [(bidsKey, .vlist rawBids), (asksKey, .vlist rawAsks)])
      = Except.ok ⟨bids, asks⟩
    ∧ bids.length = rawBids.length ∧ asks.length = rawAsks.length := by
  refine ⟨?_, (List.Forall₂.length_eq hb).symm, (List.Forall₂.length_eq ha).symm⟩
  have hl1 : assocLookup bidsKey
      [(bidsKey, RawVal.vlist rawBids), (asksKey, RawVal.vlist rawAsks)]
      = some (.vlist rawBids) := by
    simp [assocLookup]
  have hl2 : assocLookup asksKey
      [(bidsKey, RawVal.vlist rawBids), (asksKey, RawVal.vlist rawAsks)]
      = some (.vlist rawAsks) := by
    simp [assocLookup, (by decide : ¬bidsKey = asksKey)]
  simp only [validateBook, hl1, hl2, validateListField,
    validateEntryList_forall2 bidsKey rawBids bids hb 0,
    validateEntryList_forall2 asksKey rawAsks asks ha 0, combine2]

/-- Claim C4 witness: a one-bid, zero-ask book assembles in order with the
lengths preserved. -/
theorem C4_book_assembler_witness :
    validateBook (.vmap [(bidsKey, .vlist [RawVal.vlist [.vstr "1".data, .vstr "2".data]]),
      (asksKey, .vlist [])])
      = Except.ok ⟨[⟨⟨false, 1, 0⟩, ⟨false, 2, 0⟩⟩], []⟩
    ∧ ([⟨⟨false, 1, 0⟩, ⟨false, 2, 0⟩⟩] : List OrderBookEntry).length
        = [RawVal.vlist [RawVal.vstr "1".data, RawVal.vstr "2".data]].length
    ∧ ([] : List OrderBookEntry).length = ([] : List RawVal).length :=
  C4_book_assembler [RawVal.vlist [.vstr "1".data, .vstr "2".data]] []
    [⟨⟨false, 1, 0⟩, ⟨false, 2, 0⟩⟩] []
    (List.Forall₂.cons rfl List.Forall₂.nil) List.Forall₂.nil

theorem error_singleton_ne_nil {A : Type} (x : ValErr) (errs : List ValErr)
    (h : (Except.error [x] : Except (List ValErr) A) = Except.error errs) : errs ≠ [] := by
  injection h with h2
  subst h2
  simp

theorem combine2_error_ne_nil {A B C : Type} (f : A → B → C)
    (x : Except (List ValErr) A) (y : Except (List ValErr) B) (errs : List ValErr)
    (hx : ∀ e, x = Except.error e → e ≠ []) (hy : ∀ e, y = Except.error e → e ≠ [])
    (h : combine2 f x y = Except.error errs) : errs ≠ [] := by
  intro hnil
  subst hnil
  cases x with
  | ok a =>
    cases y with
    | ok b => simp [combine2] at h
    | error e2 =>
      simp [combine2] at h
      exact hy e2 rfl h
  | error e1 =>
    cases y with
    | ok b =>
      simp [combine2] at h
      exact hx e1 rfl h
    | error e2 =>
      simp [combine2] at h
      exact hx e1 rfl h.1

theorem validateDecField_error_ne_nil (name : List Char) (v : Option RawVal)
    (errs : List ValErr) (h : validateDecField name v = Except.error errs) : errs ≠ [] := by
  intro hnil
  subst hnil
  cases v with
  | none => simp [validateDecField] at h
  | some val =>
    cases val with
    | vstr s =>
      simp only [validateDecField] at h
      cases hd : decFromString s with
      | some d => rw [hd] at h; simp at h
      | none => rw [hd] at h; simp at h
    | vint n => simp [validateDecField] at h
    | vlist l => simp [validateDecField] at h
    | vmap m => simp [validateDecField] at h

theorem validateEntry_error_ne_nil (data : RawVal) (errs : List ValErr)
    (h : validateEntry data = Except.error errs) : errs ≠ [] := by
  unfold validateEntry at h
  cases hpl : parse_list data with
  | vmap kvs =>
    rw [hpl] at h
    exact combine2_error_ne_nil _ _ _ errs
      (fun e he => validateDecField_error_ne_nil _ _ e he)
      (fun e he => validateDecField_error_ne_nil _ _ e he) h
  | vstr s =>
    rw [hpl] at h
    exact error_singleton_ne_nil _ errs h
  | vint n =>
    rw [hpl] at h
    exact error_singleton_ne_nil _ errs h
  | vlist l =>
    rw [hpl] at h
    exact error_singleton_ne_nil _ errs h

theorem validateEntryAt_error_ne_nil (key : List Char) (i : Nat) (v : RawVal)
    (errs : List ValErr) (h : validateEntryAt key i v = Except.error errs) : errs ≠ [] := by
  unfold validateEntryAt at h
  cases he : validateEntry v with
  | ok e => rw [he] at h; simp at h
  | error es =>
    rw [he] at h
    have h2 : Except.error (α := OrderBookEntry)
        (es.map (fun er => (⟨.key key :: .idx i :: er.loc, er.typ⟩ : ValErr)))
        = Except.error errs := h
    injection h2 with h3
    subst h3
    intro hnil
    simp only [List.map_eq_nil_iff] at hnil
    exact validateEntry_error_ne_nil v es he hnil

theorem validateEntryList_error_ne_nil (key : List Char) (l : List RawVal) :
    ∀ i errs, validateEntryList key i l = Except.error errs → errs ≠ [] := by
  induction l with
  | nil =>
    intro i errs h
    simp [validateEntryList] at h
  | cons v rest ih =>
    intro i errs h
    simp only [validateEntryList] at h
    exact combine2_error_ne_nil _ _ _ errs
      (fun e he => validateEntryAt_error_ne_nil key i v e he)
      (fun e he => ih (i + 1) e he) h

theorem validateListField_error_ne_nil (key : List Char) (v : Option RawVal)
    (errs : List ValErr) (h : validateListField key v = Except.error errs) : errs ≠ [] := by
  cases v with
  | none => exact error_singleton_ne_nil _ errs h
  | some val =>
    cases val with
    | vlist l => exact validateEntryList_error_ne_nil key l 0 errs h
    | vstr s => exact error_singleton_ne_nil _ errs h
    | vint n => exact error_singleton_ne_nil _ errs h
    | vmap m => exact error_singleton_ne_nil _ errs h

theorem validateBook_error_ne_nil (data : RawVal) (errs : List ValErr)
    (h : validateBook data = Except.error errs) : errs ≠ [] := by
  cases data with
  | vmap kvs =>
    exact combine2_error_ne_nil _ _ _ errs
      (fun e he => validateListField_error_ne_nil bidsKey _ e he)
      (fun e he => validateListField_error_ne_nil asksKey _ e he) h
  | vstr s => exact error_singleton_ne_nil _ errs h
  | vint n => exact error_singleton_ne_nil _ errs h
  | vlist l => exact error_singleton_ne_nil _ errs h

theorem validateBookAt_ok (k : List Char) (v : RawVal) (b : OrderBook)
    (h : validateBookAt k v = Except.ok b) : validateBook v = Except.ok b := by
  unfold validateBookAt at h
  cases he : validateBook v with
  | ok b2 =>
    rw [he] at h
    have h2 : Except.ok (ε := List ValErr) b2 = Except.ok b := h
    injection h2 with h3
  | error es => rw [he] at h; simp at h

theorem validateBookAt_error (k : List Char) (v : RawVal) (errs : List ValErr)
    (h : validateBookAt k v = Except.error errs) :
    ∃ errs2, validateBook v = Except.error errs2 ∧ errs2 ≠ []
      ∧ errs = errs2.map (fun er => ⟨.key k :: er.loc, er.typ⟩) := by
  unfold validateBookAt at h
  cases he : validateBook v with
  | ok b => rw [he] at h; simp at h
  | error es =>
    rw [he] at h
    have h2 : Except.error (α := OrderBook)
        (es.map (fun er => (⟨.key k :: er.loc, er.typ⟩ : ValErr)))
        = Except.error errs := h
    injection h2 with h3
    exact ⟨es, rfl, validateBook_error_ne_nil v es he, h3.symm⟩

theorem validateBookPairs_ok (kvs : List (List Char × RawVal)) :
    ∀ books, validateBookPairs kvs = Except.ok books →
      books.map Prod.fst = kvs.map Prod.fst
        ∧ List.Forall₂ (fun kv kb => validateBook kv.2 = Except.ok kb.2) kvs books := by
  induction kvs with
  | nil =>
    intro books h
    have h2 : Except.ok (ε := List ValErr) ([] : List (List Char × OrderBook))
        = Except.ok books := h
    injection h2 with h3
    subst h3
    exact ⟨rfl, List.Forall₂.nil⟩
  | cons kv rest ih =>
    obtain ⟨k, v⟩ := kv
    intro books h
    simp only [validateBookPairs] at h
    cases h1 : validateBookAt k v with
    | error e1 =>
      rw [h1] at h
      cases h2 : validateBookPairs rest with
      | ok bs => rw [h2] at h; simp [combine2] at h
      | error e2 => rw [h2] at h; simp [combine2] at h
    | ok b =>
      rw [h1] at h
      cases h2 : validateBookPairs rest with
      | error e2 => rw [h2] at h; simp [combine2] at h
      | ok bs =>
        rw [h2] at h
        have h3 : Except.ok (ε := List ValErr) ((k, b) :: bs) = Except.ok books := h
        injection h3 with h4
        subst h4
        obtain ⟨hmap, hfa⟩ := ih bs h2
        refine ⟨?_, List.Forall₂.cons (validateBookAt_ok k v b h1) hfa⟩
        simp [hmap]

theorem validateBookPairs_error (kvs : List (List Char × RawVal)) :
    ∀ errs, validateBookPairs kvs = Except.error errs →
      errs ≠ [] ∧ ∀ er ∈ errs, ∃ k rest2, er.loc = LocItem.key k :: rest2
        ∧ ∃ v, (k, v) ∈ kvs ∧ ∃ errs2, validateBook v = Except.error errs2 := by
  induction kvs with
  | nil =>
    intro errs h
    simp [validateBookPairs] at h
  | cons kv rest ih =>
    obtain ⟨k, v⟩ := kv
    intro errs h
    simp only [validateBookPairs] at h
    cases h1 : validateBookAt k v with
    | ok b =>
      rw [h1] at h
      cases h2 : validateBookPairs rest with
      | ok bs => rw [h2] at h; simp [combine2] at h
      | error e2 =>
        rw [h2] at h
        have h3 : Except.error (α := List (List Char × OrderBook)) e2
            = Except.error errs := h
        injection h3 with h4
        subst h4
        obtain ⟨hne, hall⟩ := ih e2 h2
        refine ⟨hne, ?_⟩
        intro er her
        obtain ⟨k2, rest2, hloc, v2, hmem, herrs⟩ := hall er her
        exact ⟨k2, rest2, hloc, v2, List.mem_cons_of_mem _ hmem, herrs⟩
    | error e1 =>
      obtain ⟨errs2, hbook, hne2, hmap⟩ := validateBookAt_error k v e1 h1
      rw [h1] at h
      cases h2 : validateBookPairs rest with
      | ok bs =>
        rw [h2] at h
        have h3 : Except.error (α := List (List Char × OrderBook)) e1
            = Except.error errs := h
        injection h3 with h4
        subst h4
        constructor
        · rw [hmap]
          intro hc
          simp only [List.map_eq_nil_iff] at hc
          exact hne2 hc
        · intro er her
          rw [hmap] at her
          obtain ⟨er0, her0, rfl⟩ := List.mem_map.mp her
          exact ⟨k, er0.loc, rfl, v, List.mem_cons_self _ _, errs2, hbook⟩
      | error e2 =>
        rw [h2] at h
        have h3 : Except.error (α := List (List Char × OrderBook)) (e1 ++ e2)
            = Except.error errs := h
        injection h3 with h4
        subst h4
        obtain ⟨hne, hall⟩ := ih e2 h2
        constructor
        · intro hc
          rw [List.append_eq_nil] at hc
          exact hne hc.2
        · intro er her
          rcases List.mem_append.mp her with her | her
          · rw [hmap] at her
            obtain ⟨er0, her0, rfl⟩ := List.mem_map.mp her
            exact ⟨k, er0.loc, rfl, v, List.mem_cons_self _ _, errs2, hbook⟩
          · obtain ⟨k2, rest2, hloc, v2, hmem, herrs⟩ := hall er her
            exact ⟨k2, rest2, hloc, v2, List.mem_cons_of_mem _ hmem, herrs⟩

/-- Claim C5: for every raw keyed snapshot, the Keyed Collection Validator
either succeeds with a mapping having exactly the same keys in order, each
key mapped to the independently validated Book of its raw value, or fails
as a whole with a nonempty list of errors, each of which identifies an
offending key of the snapshot whose book fails validation; no partial
result is possible. -/
theorem C5_keyed_all_or_nothing (kvs : List (List Char × RawVal)) :
    (∀ books, all_order_books_validate (.vmap kvs) = Except.ok books →
      books.map Prod.fst = kvs.map Prod.fst
        ∧ List.Forall₂ (fun kv kb => validateBook kv.2 = Except.ok kb.2) kvs books)
    ∧ (∀ errs, all_order_books_validate (.vmap kvs) = Except.error errs →
      errs ≠ [] ∧ ∀ er ∈ errs, ∃ k rest2, er.loc = LocItem.key k :: rest2
        ∧ ∃ v, (k, v) ∈ kvs ∧ ∃ errs2, validateBook v = Except.error errs2) :=
  ⟨fun books h => validateBookPairs_ok kvs books h,
    fun errs h => validateBookPairs_error kvs errs h⟩

/-- Claim C5 witness: a one-symbol snapshot validates to a mapping with the
same key and the validated empty book. -/
theorem C5_keyed_all_or_nothing_witness :
    ([("BTCIRT".data, (⟨[], []⟩ : OrderBook))]).map Prod.fst
        = ([("BTCIRT".data,
            RawVal.vmap [(bidsKey, RawVal.vlist []), (asksKey, RawVal.vlist [])])]).map Prod.fst
      ∧ List.Forall₂ (fun kv kb => validateBook kv.2 = Except.ok kb.2)
          [("BTCIRT".data,
            RawVal.vmap [(bidsKey, RawVal.vlist []), (asksKey, RawVal.vlist [])])]
          [("BTCIRT".data, (⟨[], []⟩ : OrderBook))] :=
  (C5_keyed_all_or_nothing [("BTCIRT".data,
      RawVal.vmap [(bidsKey, RawVal.vlist []), (asksKey, RawVal.vlist [])])]).1
    [("BTCIRT".data, ⟨[], []⟩)] rfl

end Nobitex
